import Mathlib

/-!
Verification of the `npmrc` configuration reader.

The source is a small Rust library (`src/lib.rs`) that reads a user's
`.npmrc` file, deserializes it into an `Npmrc` struct (via `serde_ini`
plus a derived deserializer with a custom string-to-boolean decoder),
promotes `@scope:registry`-style keys found in the untyped `other` map
into a typed `scopes` list, and offers a registry lookup per package.

Strings are embedded as `List Char` so that all operations reduce in the
kernel. The `other` field, a `HashMap<String, String>` in the source, is
embedded as an association list; iteration order of the source map is
unspecified, and the list order stands in for one iteration order.
-/

set_option autoImplicit false

namespace Npmrc

/-- Strings are modelled as lists of characters. -/
abbrev Str := List Char

/-- Rust `s.starts_with(p)`: `strStartsWith s p` is true when `p` is a
prefix of `s`. -/
def strStartsWith : Str → Str → Bool
  | _, [] => true
  | [], _ :: _ => false
  | c :: cs, p :: ps => c = p && strStartsWith cs ps

/-- The characters of `s` before the first `:`; this is
`s.split(':').next().unwrap()` in the source (the first segment). -/
def takeUntilColon : Str → Str
  | [] => []
  | c :: cs => if c = ':' then [] else c :: takeUntilColon cs

/-- Rust `s.split(':')` in full: the list of `:`-separated segments.
On any input it returns at least one segment, which is why the
`.next().unwrap()` in the source cannot panic. -/
def splitOnColon : Str → List Str
  | [] => [[]]
  | c :: cs =>
    if c = ':' then [] :: splitOnColon cs
    else
      match splitOnColon cs with
      | [] => [[c]]
      | seg :: rest => (c :: seg) :: rest

/-- One `@scope:registry` mapping (struct `Scope` in the source). -/
structure Scope where
  name : Str
  registry_url : Str
deriving DecidableEq

/-- Representation of `.npmrc` (struct `Npmrc` in the source).
`other` embeds the source's `HashMap<String, String>` as an association
list. -/
structure Rc where
  access : Str
  loglevel : Str
  progress : Bool
  package_lock : Bool
  registry : Str
  save : Bool
  scopes : List Scope
  init_author_name : Str
  init_author_email : Str
  other : List (Str × Str)
deriving DecidableEq

/-- The condition of the loop in `get_registry_for_package`:
`package.starts_with(format!("@{}/", scope.name))`. -/
def scopeMatches (s : Scope) (package : Str) : Bool :=
  strStartsWith package ('@' :: (s.name ++ ['/']))

/-- `Npmrc::get_registry_for_package`: scan `scopes` in order for the
first entry whose name matches the package's scope prefix, otherwise
fall back to the top-level `registry` when it is non-empty. Total; the
source returns `Option<&str>` and never errors. -/
def Rc.get_registry_for_package (c : Rc) (package : Str) : Option Str :=
  match c.scopes.find? (fun s => scopeMatches s package) with
  | some s => some s.registry_url
  | none => if c.registry.isEmpty then none else some c.registry

/-- The body of the promotion loop in `read`: a key starting with `@`
yields `Scope { name: key.split(':').next().unwrap(), registry_url: value }`;
any other key yields nothing. -/
def scopeOfEntry (kv : Str × Str) : Option Scope :=
  if strStartsWith kv.1 ['@'] then
    some { name := takeUntilColon kv.1, registry_url := kv.2 }
  else
    none

/-- The promotion pass of `read`: iterate over `other` and push a scope
for every `@`-keyed entry, in iteration order, onto `scopes`. Nothing
else in the record is touched. -/
def promoteScopes (c : Rc) : Rc :=
  { c with scopes := c.scopes ++ c.other.filterMap scopeOfEntry }

/-- `bool::from_str` as used by `de_from_str`: exactly the literal texts
`true` and `false` parse; anything else is a decode error. -/
def decodeBool (s : Str) : Option Bool :=
  if s = "true".toList then some true
  else if s = "false".toList then some false
  else none

def accessKey : Str := "access".toList
def loglevelKey : Str := "loglevel".toList
def progressKey : Str := "progress".toList
def packageLockKey : Str := "package-lock".toList
def registryKey : Str := "registry".toList
def saveKey : Str := "save".toList
def scopesKey : Str := "scopes".toList
def initAuthorNameKey : Str := "init-author-name".toList
def initAuthorEmailKey : Str := "init-author-email".toList

/-- The serde field names of the `Npmrc` struct (after renames). -/
def structKeys : List Str :=
  [accessKey, loglevelKey, progressKey, packageLockKey, registryKey,
   saveKey, scopesKey, initAuthorNameKey, initAuthorEmailKey]

/-- The value at the first occurrence of key `k`, as the streaming serde
deserializer sees it. -/
def lookup1 (pairs : List (Str × Str)) (k : Str) : Option Str :=
  ((pairs.filter (fun kv => kv.1 = k)).head?).map Prod.snd

/-- How many entries carry key `k`. -/
def countKey (pairs : List (Str × Str)) (k : Str) : Nat :=
  (pairs.filter (fun kv => kv.1 = k)).length

/-- A string field: the provided value, or the `#[serde(default)]` empty
string when the key is absent. -/
def strField (pairs : List (Str × Str)) (k : Str) : Str :=
  (lookup1 pairs k).getD []

/-- A boolean field: absent means the default `false`; present means the
custom `de_from_str` decoder runs and may fail. -/
def decodeBoolField (pairs : List (Str × Str)) (k : Str) : Option Bool :=
  match lookup1 pairs k with
  | none => some false
  | some v => decodeBool v

/-- `HashMap` collection of the flattened leftover entries: inserting in
stream order, a later value for a key overwrites an earlier one. Keeps,
for each key, the value of its last occurrence. -/
def collapse : List (Str × Str) → List (Str × Str)
  | [] => []
  | kv :: rest =>
    if rest.any (fun e => e.1 = kv.1) then collapse rest
    else kv :: collapse rest

/-- The entries that the derived deserializer does not consume as struct
fields and therefore flattens into `other`. -/
def otherOf (pairs : List (Str × Str)) : List (Str × Str) :=
  collapse (pairs.filter (fun kv => decide (kv.1 ∉ structKeys)))

/-- The derived `Deserialize` for `Npmrc` over a stream of key/value
pairs: a `scopes` key fails (its string value is not a sequence), a
duplicated struct field fails, a malformed boolean fails; otherwise
recognized keys populate their fields, defaults fill the rest, and the
leftover entries flatten into `other`. -/
def decodeNpmrc (pairs : List (Str × Str)) : Option Rc :=
  if pairs.any (fun kv => kv.1 = scopesKey) then none
  else if structKeys.any (fun k => decide (1 < countKey pairs k)) then none
  else
    match decodeBoolField pairs progressKey,
          decodeBoolField pairs packageLockKey,
          decodeBoolField pairs saveKey with
    | some p, some pl, some sv =>
      some { access := strField pairs accessKey
             loglevel := strField pairs loglevelKey
             progress := p
             package_lock := pl
             registry := strField pairs registryKey
             save := sv
             scopes := []
             init_author_name := strField pairs initAuthorNameKey
             init_author_email := strField pairs initAuthorEmailKey
             other := otherOf pairs }
    | _, _, _ => none

/-- Split a text into lines at `\n`, as the INI reader does. -/
def splitLinesAux (cur : Str) : Str → List Str
  | [] => [cur.reverse]
  | c :: cs =>
    if c = '\n' then cur.reverse :: splitLinesAux [] cs
    else splitLinesAux (c :: cur) cs

def splitLines (text : Str) : List Str :=
  splitLinesAux [] text

/-- Strip one trailing `\r` so that CRLF line endings parse too. -/
def dropCR (line : Str) : Str :=
  match line.reverse with
  | '\r' :: rest => rest.reverse
  | _ => line

/-- Parse one INI line: empty lines carry nothing, a `[` opens a section
(which the flat `Npmrc` struct cannot absorb, so it is a decode error),
and any other line must contain `=`, splitting at the first one. -/
def parseLine (line : Str) : Option (Option (Str × Str)) :=
  match dropCR line with
  | [] => some none
  | c :: cs =>
    if c = '[' then none
    else
      match splitFirstEq [] (c :: cs) with
      | some kv => some (some kv)
      | none => none
where
  /-- Split at the first `=`: accumulated key characters are in `acc`
  (reversed). -/
  splitFirstEq (acc : Str) : Str → Option (Str × Str)
    | [] => none
    | c :: cs => if c = '=' then some (acc.reverse, cs) else splitFirstEq (c :: acc) cs

/-- `serde_ini::from_str`, stage one: the raw text to the stream of
key/value pairs (or a parse error). -/
def parseIni (text : Str) : Option (List (Str × Str)) :=
  go (splitLines text)
where
  go : List Str → Option (List (Str × Str))
    | [] => some []
    | l :: ls => do
      let item ← parseLine l
      let rest ← go ls
      match item with
      | none => some rest
      | some kv => some (kv :: rest)

/-- The pure core of `read()`: parse the file text, decode the struct,
then run the scope-promotion pass. Locating and reading the file itself
is I/O and is not modelled; every record `read()` returns is
`readPure text` for the file's text. -/
def readPure (text : Str) : Option Rc :=
  match parseIni text with
  | none => none
  | some pairs =>
    match decodeNpmrc pairs with
    | none => none
    | some c => some (promoteScopes c)

/-- The record with every `#[serde(default)]`: empty strings, false
booleans, no scopes, nothing in `other`. -/
def defaultRc : Rc :=
  { access := [], loglevel := [], progress := false, package_lock := false
    registry := [], save := false, scopes := []
    init_author_name := [], init_author_email := [], other := [] }

end Npmrc

namespace Npmrc

/-! ### Helper lemmas -/

theorem find?_eq_of_first {α : Type} (p : α → Bool) (l₁ l₂ : List α) (s : α)
    (hm : p s = true) (hfirst : ∀ t ∈ l₁, p t = false) :
    (l₁ ++ s :: l₂).find? p = some s := by
  induction l₁ with
  | nil => simp [List.find?, hm]
  | cons a l ih =>
    have ha : p a = false := hfirst a (by simp)
    simp only [List.cons_append, List.find?]
    rw [ha]
    exact ih fun t ht => hfirst t (List.mem_cons_of_mem a ht)

theorem strStartsWith_at_iff (k : Str) :
    strStartsWith k ['@'] = true ↔ ∃ t, k = '@' :: t := by
  cases k with
  | nil => simp [strStartsWith]
  | cons c cs =>
    simp only [strStartsWith, Bool.and_eq_true, decide_eq_true_eq]
    constructor
    · rintro ⟨rfl, -⟩; exact ⟨cs, rfl⟩
    · rintro ⟨t, ht⟩; cases ht; exact ⟨rfl, by simp [strStartsWith]⟩

theorem takeUntilColon_at (t : Str) :
    takeUntilColon ('@' :: t) = '@' :: takeUntilColon t := by
  simp [takeUntilColon]

theorem scopeOfEntry_some (kv : Str × Str) (s : Scope)
    (h : scopeOfEntry kv = some s) :
    ∃ t, kv.1 = '@' :: t ∧ s.name = takeUntilColon kv.1 ∧ s.registry_url = kv.2 := by
  unfold scopeOfEntry at h
  split at h
  · rename_i hat
    obtain ⟨t, ht⟩ := (strStartsWith_at_iff kv.1).1 hat
    cases h
    exact ⟨t, ht, rfl, rfl⟩
  · exact absurd h (by simp)

theorem lookup1_eq_none (pairs : List (Str × Str)) (k : Str)
    (h : k ∉ pairs.map Prod.fst) : lookup1 pairs k = none := by
  induction pairs with
  | nil => rfl
  | cons kv rest ih =>
    have hk : (decide (kv.1 = k)) = false := by
      simp only [decide_eq_false_iff_not]
      exact fun he => h (by simp [← he])
    unfold lookup1
    rw [List.filter_cons, hk]
    simp only [Bool.false_eq_true, if_false]
    exact ih fun hm => h (List.mem_cons_of_mem _ hm)

theorem collapse_of_nodup (l : List (Str × Str)) (h : (l.map Prod.fst).Nodup) :
    collapse l = l := by
  induction l with
  | nil => rfl
  | cons kv rest ih =>
    simp only [List.map_cons, List.nodup_cons] at h
    have hany : rest.any (fun e => decide (e.1 = kv.1)) = false := by
      simp only [List.any_eq_false, decide_eq_true_eq]
      intro e he hekv
      exact h.1 (hekv ▸ List.mem_map_of_mem Prod.fst he)
    unfold collapse
    rw [hany]
    simp [ih h.2]

theorem decode_spec (pairs : List (Str × Str)) (c : Rc)
    (h : decodeNpmrc pairs = some c) :
    decodeBoolField pairs progressKey = some c.progress ∧
    decodeBoolField pairs packageLockKey = some c.package_lock ∧
    decodeBoolField pairs saveKey = some c.save ∧
    c.access = strField pairs accessKey ∧
    c.loglevel = strField pairs loglevelKey ∧
    c.registry = strField pairs registryKey ∧
    c.init_author_name = strField pairs initAuthorNameKey ∧
    c.init_author_email = strField pairs initAuthorEmailKey ∧
    c.scopes = [] ∧
    c.other = otherOf pairs := by
  unfold decodeNpmrc at h
  split at h
  · exact absurd h (by simp)
  · split at h
    · exact absurd h (by simp)
    · split at h
      · rename_i p pl sv hp hpl hsv
        cases h
        exact ⟨hp, hpl, hsv, rfl, rfl, rfl, rfl, rfl, rfl, rfl⟩
      · exact absurd h (by simp)

theorem readPure_spec (text : Str) (c : Rc) (h : readPure text = some c) :
    ∃ pairs d, parseIni text = some pairs ∧ decodeNpmrc pairs = some d ∧
      c = promoteScopes d := by
  unfold readPure at h
  cases hp : parseIni text with
  | none => rw [hp] at h; exact absurd h (by simp)
  | some pairs =>
    rw [hp] at h
    dsimp only at h
    cases hd : decodeNpmrc pairs with
    | none => rw [hd] at h; exact absurd h (by simp)
    | some d =>
      rw [hd] at h
      dsimp only at h
      exact ⟨pairs, d, rfl, hd, (Option.some.inj h).symm⟩

end Npmrc

namespace Npmrc

/-! ### Claims -/

/-- C1: the claim states that each promoted scope's name is the key's
text before the first `:` stripped of the leading `@`. The promotion
pass in `read` does not strip it: `key.split(':').next().unwrap()`
keeps the `@`, so the key `@acme:registry` yields the name `@acme`,
not `acme` (and `get_registry_for_package`, which prepends `@` itself,
can then never match a promoted scope). This evaluates the code at the
failing input. -/
theorem scope_name_not_stripped :
    (promoteScopes { defaultRc with
        other := [("@acme:registry".toList, "https://acme.example/".toList)] }).scopes
      = [{ name := "@acme".toList, registry_url := "https://acme.example/".toList }]
    ∧ "@acme".toList ≠ "acme".toList := by decide

/-- C2: on the scenario input the decoded record has the claimed
`registry`, `save`, `progress` and `other`, but the single promoted
scope is named `@acme`, not `acme` as the claim states: the leading `@`
is not stripped. This evaluates the whole pipeline at the scenario
input. -/
theorem scenario_decode_keeps_at :
    readPure ("registry=https://registry.npmjs.org/\n@acme:registry=https://acme.example/\nsave=true\nprogress=false").toList
      = some { defaultRc with
          registry := "https://registry.npmjs.org/".toList
          save := true
          scopes := [{ name := "@acme".toList, registry_url := "https://acme.example/".toList }]
          other := [("@acme:registry".toList, "https://acme.example/".toList)] }
    ∧ "@acme".toList ≠ "acme".toList := by decide

/-- C3: `get_registry_for_package` scans `scopes` in order and returns
the `registry_url` of the first entry whose name matches the package's
scope prefix (`package` starts with `@<name>/`), regardless of the
top-level `registry`; with duplicate names the first match in list
order wins. -/
theorem get_registry_first_match (c : Rc) (package : Str) (l₁ l₂ : List Scope)
    (s : Scope) (hs : c.scopes = l₁ ++ s :: l₂)
    (hm : scopeMatches s package = true)
    (hfirst : ∀ t ∈ l₁, scopeMatches t package = false) :
    c.get_registry_for_package package = some s.registry_url := by
  unfold Rc.get_registry_for_package
  rw [hs, find?_eq_of_first _ l₁ l₂ s hm hfirst]

/-- Witness for C3: two scopes named `foo`; the first one wins, and the
non-empty top-level registry is ignored. -/
theorem get_registry_first_match_witness :
    Rc.get_registry_for_package
      { defaultRc with
        registry := "https://top.example/".toList
        scopes := [{ name := "foo".toList, registry_url := "https://dup1.example/".toList },
                   { name := "foo".toList, registry_url := "https://dup2.example/".toList }] }
      "@foo/bar".toList = some "https://dup1.example/".toList :=
  get_registry_first_match _ "@foo/bar".toList []
    [{ name := "foo".toList, registry_url := "https://dup2.example/".toList }]
    { name := "foo".toList, registry_url := "https://dup1.example/".toList }
    rfl (by decide) (by simp)

/-- C4: when no scope matches the package, `get_registry_for_package`
returns the top-level `registry` when it is non-empty and `none` when it
is empty; the operation is a total function into `Option` and never
produces an error. -/
theorem get_registry_no_match (c : Rc) (package : Str)
    (h : ∀ s ∈ c.scopes, scopeMatches s package = false) :
    c.get_registry_for_package package =
      if c.registry = [] then none else some c.registry := by
  unfold Rc.get_registry_for_package
  have hf : c.scopes.find? (fun s => scopeMatches s package) = none :=
    List.find?_eq_none.2 fun x hx => by simp [h x hx]
  rw [hf]
  by_cases hr : c.registry = [] <;> simp [hr, List.isEmpty_iff]

/-- Witness for C4: a packageless record gives `none`; a non-empty
top-level registry is returned for an unscoped package. -/
theorem get_registry_no_match_witness :
    Rc.get_registry_for_package defaultRc "plainpkg".toList = none ∧
    Rc.get_registry_for_package { defaultRc with registry := "https://top.example/".toList }
      "plainpkg".toList = some "https://top.example/".toList := by
  constructor
  · have h := get_registry_no_match defaultRc "plainpkg".toList
      (by intro s hs; simp [defaultRc] at hs)
    simpa [defaultRc] using h
  · have h := get_registry_no_match
      { defaultRc with registry := "https://top.example/".toList } "plainpkg".toList
      (by intro s hs; simp [defaultRc] at hs)
    rw [if_neg (by decide)] at h
    exact h

end Npmrc

namespace Npmrc

/-! ### More helper lemmas -/

theorem countKey_singleton_le (kv : Str × Str) (k2 : Str) :
    countKey [kv] k2 ≤ 1 := by
  unfold countKey
  calc (List.filter (fun e => e.1 = k2) [kv]).length
      ≤ [kv].length := List.length_filter_le _ _
    _ = 1 := rfl

theorem decode_single_bad_bool (k s : Str)
    (hk : k = progressKey ∨ k = packageLockKey ∨ k = saveKey)
    (hb : decodeBool s = none) :
    decodeNpmrc [(k, s)] = none := by
  have hscope : ([(k, s)].any (fun kv => kv.1 = scopesKey)) = false := by
    rcases hk with rfl | rfl | rfl <;> simp [List.any_cons, List.any_nil] <;> decide
  have hdup : (structKeys.any fun k2 => decide (1 < countKey [(k, s)] k2)) = false := by
    rw [List.any_eq_false]
    intro x hx
    simp only [decide_eq_true_eq]
    exact Nat.not_lt.2 (countKey_singleton_le _ x)
  have hfield : decodeBoolField [(k, s)] k = none := by
    have hl : lookup1 [(k, s)] k = some s := by
      simp [lookup1, List.filter_cons]
    simp [decodeBoolField, hl, hb]
  unfold decodeNpmrc
  simp only [hscope, hdup, Bool.false_eq_true, if_false]
  rcases hk with rfl | rfl | rfl
  · rw [hfield]
  · rw [hfield]
    cases decodeBoolField [(packageLockKey, s)] progressKey <;> rfl
  · rw [hfield]
    cases decodeBoolField [(saveKey, s)] progressKey <;>
      cases decodeBoolField [(saveKey, s)] packageLockKey <;> rfl

theorem takeUntilColon_eq_self (k : Str) (h : ':' ∉ k) :
    takeUntilColon k = k := by
  induction k with
  | nil => rfl
  | cons c cs ih =>
    have hc : ¬ (c = ':') := fun he => h (he ▸ List.mem_cons_self c cs)
    unfold takeUntilColon
    rw [if_neg hc, ih fun hm => h (List.mem_cons_of_mem c hm)]

theorem splitOnColon_spec (k : Str) :
    splitOnColon k ≠ [] ∧ (splitOnColon k).head? = some (takeUntilColon k) := by
  induction k with
  | nil => exact ⟨by simp [splitOnColon], by simp [splitOnColon, takeUntilColon]⟩
  | cons c cs ih =>
    by_cases hc : c = ':'
    · subst hc
      exact ⟨by simp [splitOnColon], by simp [splitOnColon, takeUntilColon]⟩
    · obtain ⟨hne, hhd⟩ := ih
      cases hsp : splitOnColon cs with
      | nil => exact absurd hsp hne
      | cons seg rest =>
        rw [hsp] at hhd
        have hseg : seg = takeUntilColon cs := Option.some.inj (by simpa using hhd)
        unfold splitOnColon
        rw [if_neg hc, hsp]
        exact ⟨by simp, by simp [List.head?, hseg, takeUntilColon, hc]⟩

end Npmrc

namespace Npmrc

/-- C5: for each boolean-typed field (`progress`, `package-lock`,
`save`), the literal text `true` decodes to `true` and `false` to
`false`, and any other text makes the decode fail, as the custom
`de_from_str` deserializer delegates to `bool::from_str`. -/
theorem bool_fields_strict (s : Str)
    (hs1 : s ≠ "true".toList) (hs2 : s ≠ "false".toList) :
    ((decodeNpmrc [(progressKey, "true".toList)]).map Rc.progress = some true) ∧
    ((decodeNpmrc [(progressKey, "false".toList)]).map Rc.progress = some false) ∧
    decodeNpmrc [(progressKey, s)] = none ∧
    ((decodeNpmrc [(packageLockKey, "true".toList)]).map Rc.package_lock = some true) ∧
    ((decodeNpmrc [(packageLockKey, "false".toList)]).map Rc.package_lock = some false) ∧
    decodeNpmrc [(packageLockKey, s)] = none ∧
    ((decodeNpmrc [(saveKey, "true".toList)]).map Rc.save = some true) ∧
    ((decodeNpmrc [(saveKey, "false".toList)]).map Rc.save = some false) ∧
    decodeNpmrc [(saveKey, s)] = none := by
  have hb : decodeBool s = none := by
    unfold decodeBool
    rw [if_neg hs1, if_neg hs2]
  exact ⟨by decide, by decide, decode_single_bad_bool _ s (Or.inl rfl) hb,
         by decide, by decide, decode_single_bad_bool _ s (Or.inr (Or.inl rfl)) hb,
         by decide, by decide, decode_single_bad_bool _ s (Or.inr (Or.inr rfl)) hb⟩

/-- Witness for C5 at the spec's scenario text `save=notabool`. -/
theorem bool_fields_strict_witness :
    decodeNpmrc [(saveKey, "notabool".toList)] = none :=
  (bool_fields_strict "notabool".toList (by decide) (by decide)).2.2.2.2.2.2.2.2

/-- C6: any recognized key absent from the input gets its documented
default (empty string for the five string fields, `false` for the three
boolean fields); `scopes` is always empty right after decoding; and the
empty file yields the all-default record with empty `scopes` and empty
`other`. -/
theorem absent_keys_default (pairs : List (Str × Str)) (c : Rc)
    (h : decodeNpmrc pairs = some c) :
    (accessKey ∉ pairs.map Prod.fst → c.access = []) ∧
    (loglevelKey ∉ pairs.map Prod.fst → c.loglevel = []) ∧
    (registryKey ∉ pairs.map Prod.fst → c.registry = []) ∧
    (initAuthorNameKey ∉ pairs.map Prod.fst → c.init_author_name = []) ∧
    (initAuthorEmailKey ∉ pairs.map Prod.fst → c.init_author_email = []) ∧
    (progressKey ∉ pairs.map Prod.fst → c.progress = false) ∧
    (packageLockKey ∉ pairs.map Prod.fst → c.package_lock = false) ∧
    (saveKey ∉ pairs.map Prod.fst → c.save = false) ∧
    c.scopes = [] ∧
    readPure [] = some defaultRc := by
  obtain ⟨hp, hpl, hsv, hacc, hlog, hreg, hian, hiae, hsc, -⟩ := decode_spec pairs c h
  refine ⟨?_, ?_, ?_, ?_, ?_, ?_, ?_, ?_, hsc, by decide⟩
  · intro habs; rw [hacc]; simp [strField, lookup1_eq_none pairs _ habs]
  · intro habs; rw [hlog]; simp [strField, lookup1_eq_none pairs _ habs]
  · intro habs; rw [hreg]; simp [strField, lookup1_eq_none pairs _ habs]
  · intro habs; rw [hian]; simp [strField, lookup1_eq_none pairs _ habs]
  · intro habs; rw [hiae]; simp [strField, lookup1_eq_none pairs _ habs]
  · intro habs
    have hfb : decodeBoolField pairs progressKey = some false := by
      simp [decodeBoolField, lookup1_eq_none pairs _ habs]
    rw [hfb] at hp
    exact (Option.some.inj hp).symm
  · intro habs
    have hfb : decodeBoolField pairs packageLockKey = some false := by
      simp [decodeBoolField, lookup1_eq_none pairs _ habs]
    rw [hfb] at hpl
    exact (Option.some.inj hpl).symm
  · intro habs
    have hfb : decodeBoolField pairs saveKey = some false := by
      simp [decodeBoolField, lookup1_eq_none pairs _ habs]
    rw [hfb] at hsv
    exact (Option.some.inj hsv).symm

/-- Witness for C6 at the empty input. -/
theorem absent_keys_default_witness :
    defaultRc.access = [] ∧ defaultRc.progress = false ∧
    defaultRc.scopes = [] ∧ readPure [] = some defaultRc := by
  have h := absent_keys_default [] defaultRc (by decide)
  exact ⟨h.1 (by simp), h.2.2.2.2.2.1 (by simp),
         h.2.2.2.2.2.2.2.2.1, h.2.2.2.2.2.2.2.2.2⟩

/-- C7: after a successful decode, every input key that is not a
recognized struct field sits in `other` with its raw value (stated for
inputs without duplicate keys, matching one iteration order of the
source's `HashMap`), and the scope-promotion pass leaves `other`
untouched, so the `@`-prefixed keys it reads stay in `other`. -/
theorem other_keeps_unknown_keys (pairs : List (Str × Str)) (c : Rc)
    (h : decodeNpmrc pairs = some c)
    (hnd : (pairs.map Prod.fst).Nodup) :
    (∀ kv ∈ pairs, kv.1 ∉ structKeys → kv ∈ c.other) ∧
    (promoteScopes c).other = c.other := by
  obtain ⟨-, -, -, -, -, -, -, -, -, hoth⟩ := decode_spec pairs c h
  refine ⟨?_, rfl⟩
  intro kv hkv hunknown
  rw [hoth]
  unfold otherOf
  have hsubl : List.Sublist
      ((pairs.filter fun e => decide (e.1 ∉ structKeys)).map Prod.fst)
      (pairs.map Prod.fst) :=
    List.Sublist.map Prod.fst (List.filter_sublist pairs)
  rw [collapse_of_nodup _ (List.Nodup.sublist hsubl hnd)]
  exact List.mem_filter.2 ⟨hkv, by simpa using hunknown⟩

/-- Witness for C7: the scope key `@acme:registry` survives in `other`
through decoding and promotion. -/
theorem other_keeps_unknown_keys_witness :
    (("@acme:registry".toList, "https://acme.example/".toList) ∈
      ({ defaultRc with
          other := [("@acme:registry".toList, "https://acme.example/".toList)] } : Rc).other) ∧
    (promoteScopes { defaultRc with
        other := [("@acme:registry".toList, "https://acme.example/".toList)] }).other =
      ({ defaultRc with
          other := [("@acme:registry".toList, "https://acme.example/".toList)] } : Rc).other := by
  have h := other_keeps_unknown_keys
    [("@acme:registry".toList, "https://acme.example/".toList)]
    { defaultRc with
        other := [("@acme:registry".toList, "https://acme.example/".toList)] }
    (by decide) (by decide)
  exact ⟨h.1 _ (by simp) (by decide), h.2⟩

end Npmrc

namespace Npmrc

/-- C8: every scope in a record returned by `read` comes from the
promotion pass (decoding always leaves `scopes` empty) and has a
non-empty name: the source key starts with `@`, and `@` is not `:`, so
the segment before the first `:` contains at least the `@`. -/
theorem promoted_scope_name_nonempty (text : Str) (c : Rc)
    (h : readPure text = some c) (s : Scope) (hs : s ∈ c.scopes) :
    s.name ≠ [] := by
  obtain ⟨pairs, d, hp, hd, hc⟩ := readPure_spec text c h
  obtain ⟨-, -, -, -, -, -, -, -, hdsc, -⟩ := decode_spec pairs d hd
  subst hc
  have hmem : s ∈ d.other.filterMap scopeOfEntry := by
    simpa [promoteScopes, hdsc] using hs
  obtain ⟨kv, hkv, hsome⟩ := List.mem_filterMap.1 hmem
  obtain ⟨t, hkey, hname, -⟩ := scopeOfEntry_some kv s hsome
  rw [hname, hkey, takeUntilColon_at]
  simp

/-- Witness for C8 on the file text `@a:r=u`. -/
theorem promoted_scope_name_nonempty_witness :
    ({ name := "@a".toList, registry_url := "u".toList } : Scope).name ≠ [] :=
  promoted_scope_name_nonempty "@a:r=u".toList
    { defaultRc with
        scopes := [{ name := "@a".toList, registry_url := "u".toList }]
        other := [("@a:r".toList, "u".toList)] }
    (by decide) _ (by decide)

/-- C9: every scope in a record returned by `read` has a name that
starts with `@`: the promotion pass takes the key's first
`:`-separated segment without stripping the leading `@`. -/
theorem promoted_scope_name_keeps_at (text : Str) (c : Rc)
    (h : readPure text = some c) (s : Scope) (hs : s ∈ c.scopes) :
    ∃ t, s.name = '@' :: t := by
  obtain ⟨pairs, d, hp, hd, hc⟩ := readPure_spec text c h
  obtain ⟨-, -, -, -, -, -, -, -, hdsc, -⟩ := decode_spec pairs d hd
  subst hc
  have hmem : s ∈ d.other.filterMap scopeOfEntry := by
    simpa [promoteScopes, hdsc] using hs
  obtain ⟨kv, hkv, hsome⟩ := List.mem_filterMap.1 hmem
  obtain ⟨t, hkey, hname, -⟩ := scopeOfEntry_some kv s hsome
  rw [hname, hkey, takeUntilColon_at]
  exact ⟨_, rfl⟩

/-- Witness for C9 on the file text `@b:r=u2`. -/
theorem promoted_scope_name_keeps_at_witness :
    ∃ t, ({ name := "@b".toList, registry_url := "u2".toList } : Scope).name = '@' :: t :=
  promoted_scope_name_keeps_at "@b:r=u2".toList
    { defaultRc with
        scopes := [{ name := "@b".toList, registry_url := "u2".toList }]
        other := [("@b:r".toList, "u2".toList)] }
    (by decide) _ (by decide)

/-- C10: Rust's `split(':')` always yields at least one segment, whose
first element is exactly the text before the first `:`, so the
`.next().unwrap()` in the promotion pass cannot fail; and an `@`-key
with no `:` at all is promoted to a scope whose name is the whole
key. -/
theorem split_always_yields_first_segment (k v : Str) :
    splitOnColon k ≠ [] ∧
    (splitOnColon k).head? = some (takeUntilColon k) ∧
    (strStartsWith k ['@'] = true → ':' ∉ k →
      scopeOfEntry (k, v) = some { name := k, registry_url := v }) := by
  refine ⟨(splitOnColon_spec k).1, (splitOnColon_spec k).2, ?_⟩
  intro hat hcol
  unfold scopeOfEntry
  rw [if_pos hat, takeUntilColon_eq_self k hcol]

/-- Witness for C10 on the colon-free key `@mycorp`. -/
theorem split_always_yields_first_segment_witness :
    scopeOfEntry ("@mycorp".toList, "https://m.example/".toList)
      = some { name := "@mycorp".toList, registry_url := "https://m.example/".toList } :=
  (split_always_yields_first_segment "@mycorp".toList "https://m.example/".toList).2.2
    (by decide) (by decide)

end Npmrc
